import Mathlib

/-! # PaulioRandall/cookies

A shallow embedding of the Go packages `stack` (`go/pkg/stack/stack.go`), `main`
(`go/playground/playground.go`), `bash` (`go/pkg/bash/bash.go`) and `cookies`
(`go/cookies/errors.go`): first the definitions of all four, then the theorems. The notes
below are on the package `stack`; the other packages have their own further down.

* Memory is explicit. A `*Node` is `Option Nat`: `none` is `nil`, `some a` is the
  address `a`, and the heap is the list of the nodes allocated so far, a node's
  address being its index. `&Node{...}` allocates at the end of the heap.
* A method with receiver `s *Stack` acts on a `World`: the heap together with the
  `Stack` value the receiver points to.
* A method that can dereference a pointer returns `Except Fault _`; dereferencing
  `nil` is `Fault.nilDeref`, Go's run-time panic.
* `Size` is Go's `int`. In `Stack.Push` and `Stack.Pop` it is taken as an unbounded
  integer: a stack grown by `Push` holds one live node for each unit of `Size`, so the
  increment cannot wrap before memory is exhausted. On a `Stack` value built by hand the
  increment can wrap; `Stack.Push64` is `Push` with the 64-bit wrap written out, and it is
  the definition used wherever `Push` is applied to an arbitrary `Stack` value.
-/

namespace stack

/-- The element type, `Thing string`. -/
abbrev Thing := String

/-- A `*Node`: `none` is `nil`, `some a` is the address `a`. -/
abbrev Ptr := Option Nat

/-- The struct `Node struct { Data Thing; Next *Node }`. -/
structure Node where
  Data : Thing
  Next : Ptr
  deriving DecidableEq

/-- The struct `Stack struct { Top *Node; Size int }`. -/
structure Stack where
  Top : Ptr
  Size : Int
  deriving DecidableEq

/-- The allocated nodes; the node at address `a` is the `a`-th entry. -/
abbrev Heap := List Node

/-- The memory a method runs in: the heap and the receiver's `Stack` value. -/
structure World where
  heap : Heap
  s : Stack
  deriving DecidableEq

/-- The ways a run can fail to return. -/
inductive Fault where
  /-- A `nil` pointer was dereferenced (Go panics). -/
  | nilDeref
  /-- An address outside the heap was read; no Go pointer has such a value. -/
  | badAddr
  /-- The loop was still running when the step budget ran out. -/
  | fuel
  deriving DecidableEq

/-- Reading `*p`. -/
def deref (h : Heap) : Ptr → Except Fault Node
  | none => .error .nilDeref
  | some a =>
    match h[a]? with
    | some n => .ok n
    | none => .error .badAddr

/-- The text `fmt.Sprintf("%+v", x)` for `x` of type `Thing`: a value of string kind that has
no `String`, `Error` or `Format` method is printed as its characters. -/
def sprintfPlusV (x : Thing) : String := x

/-- Method `func (n Node) String() string` -/
def Node.String (n : Node) : String :=
  sprintfPlusV n.Data

/-- The value `Stack{}`, in a memory whose heap is `h`. -/
def emptyStack (h : Heap) : World :=
  { heap := h, s := { Top := none, Size := 0 } }

/-- Method `func (s *Stack) Empty() bool` -/
def Stack.Empty (w : World) : Bool × World :=
  (decide (w.s.Size = 0), w)

/-- Method `func (s *Stack) Push(t Thing)`, with `s.Size++` as the exact sum: this is what
the method does as long as `Size` is below the largest `int` (`Push64_eq_Push`). -/
def Stack.Push (t : Thing) (w : World) : World :=
  -- s.Top = &Node{Data: t, Next: s.Top}
  let w : World := { heap := w.heap ++ [{ Data := t, Next := w.s.Top }],
                     s := { w.s with Top := some w.heap.length } }
  -- s.Size++
  { w with s := { w.s with Size := w.s.Size + 1 } }

/-- The largest value of Go's `int` on a 64-bit platform, `math.MaxInt64`. -/
def maxInt : Int := 9223372036854775807

/-- The smallest value of Go's `int` on a 64-bit platform, `math.MinInt64`. -/
def minInt : Int := -9223372036854775808

/-- The integers that are values of the type `int`. -/
abbrev IsInt (x : Int) : Prop := minInt ≤ x ∧ x ≤ maxInt

/-- The `int` that an arithmetic operation yields when its exact result is `x`: the value
in the range of `int` that differs from `x` by a multiple of `2^64`. -/
def wrapInt (x : Int) : Int :=
  (x - minInt) % 18446744073709551616 + minInt

/-- Method `func (s *Stack) Push(t Thing)`, with `s.Size++` as the machine increment, which
wraps from the largest `int` to the smallest. -/
def Stack.Push64 (t : Thing) (w : World) : World :=
  -- s.Top = &Node{Data: t, Next: s.Top}
  let w : World := { heap := w.heap ++ [{ Data := t, Next := w.s.Top }],
                     s := { w.s with Top := some w.heap.length } }
  -- s.Size++
  { w with s := { w.s with Size := wrapInt (w.s.Size + 1) } }

/-- Method `func (s *Stack) Peek() (Thing, bool)` -/
def Stack.Peek (w : World) : Except Fault ((Thing × Bool) × World) :=
  if w.s.Size = 0 then
    .ok (("", false), w)
  else
    match deref w.heap w.s.Top with
    | .error e => .error e
    | .ok n => .ok ((n.Data, true), w)

/-- Method `func (s *Stack) Pop() (t Thing, ok bool)`, with `s.Size--` as the exact
difference: this is what the method does as long as `Size` is above the smallest `int`,
as it is on every stack grown by `Push`, where `Size` is never negative. -/
def Stack.Pop (w : World) : Except Fault ((Thing × Bool) × World) :=
  match Stack.Peek w with
  | .error e => .error e
  | .ok ((t, true), w) =>
    -- s.Top = s.Top.Next
    match deref w.heap w.s.Top with
    | .error e => .error e
    | .ok n =>
      let w : World := { w with s := { w.s with Top := n.Next } }
      -- s.Size--
      let w : World := { w with s := { w.s with Size := w.s.Size - 1 } }
      .ok ((t, true), w)
  | .ok ((t, false), w) => .ok ((t, false), w)

/-- A `func(n *Node)` closure: it is handed a node's address and may read and write
its captured variables (the state `σ`) and the memory. -/
abbrev Visitor (σ : Type) := Nat → σ → World → Except Fault (σ × World)

/-- The loop of `foreachNode`, `for n := ...; n != nil; n = n.Next { f(n) }`, from the
current `n`, with a budget of `fuel` calls of `f`. -/
def foreachNode.loop {σ : Type} (f : Visitor σ) : Nat → Ptr → σ → World → Except Fault (σ × World)
  | _, none, c, w => .ok (c, w)
  | 0, some _, _, _ => .error .fuel
  | fuel + 1, some a, c, w =>
    match f a c w with
    | .error e => .error e
    | .ok (c, w) =>
      match deref w.heap (some a) with
      | .error e => .error e
      | .ok n => foreachNode.loop f fuel n.Next c w

/-- Method `func (s *Stack) foreachNode(f func(n *Node))` -/
def Stack.foreachNode {σ : Type} (fuel : Nat) (f : Visitor σ) (c : σ) (w : World) :
    Except Fault (σ × World) :=
  foreachNode.loop f fuel w.s.Top c w

/-- The closure `f` of `JoinString`; its captured variable is the builder `sb`,
whose contents are the state. -/
def JoinString.f (delim : String) : Visitor String := fun a sb w =>
  match deref w.heap (some a) with
  | .error e => .error e
  | .ok n =>
    -- sb.WriteString(n.String())
    let sb := sb ++ n.String
    -- if n.Next != nil { sb.WriteString(delim) }
    if n.Next ≠ none then .ok (sb ++ delim, w) else .ok (sb, w)

/-- Method `func (s *Stack) JoinString(delim string) string` -/
def Stack.JoinString (fuel : Nat) (delim : String) (w : World) : Except Fault (String × World) :=
  -- sb := strings.Builder{}
  Stack.foreachNode fuel (JoinString.f delim) "" w

/-- Method `func (s *Stack) String() string` -/
def Stack.String (fuel : Nat) (w : World) : Except Fault (String × World) :=
  Stack.JoinString fuel ", " w

/-! ## Derived notions used to state the properties -/

/-- Calls of `Push`, one for each element of `xs`, in order. -/
def pushAll (xs : List Thing) (w : World) : World :=
  xs.foldl (fun w x => Stack.Push x w) w

/-- Calls of `Pop`, `k` of them; the results are listed in call order. -/
def popN : Nat → World → Except Fault (List (Thing × Bool) × World)
  | 0, w => .ok ([], w)
  | k + 1, w =>
    match Stack.Pop w with
    | .error e => .error e
    | .ok (r, w) =>
      match popN k w with
      | .error e => .error e
      | .ok (rs, w) => .ok (r :: rs, w)

/-- A chain: `cs` lists, with their addresses, the nodes met from `p` by following
`Next` until `nil`. -/
def IsChain (h : Heap) : Ptr → List (Nat × Node) → Prop
  | p, [] => p = none
  | p, (a, n) :: cs => p = some a ∧ h[a]? = some n ∧ IsChain h n.Next cs

instance IsChain.instDecidable (h : Heap) : ∀ p cs, Decidable (IsChain h p cs)
  | p, [] => inferInstanceAs (Decidable (p = none))
  | p, (a, n) :: cs =>
    have : Decidable (IsChain h n.Next cs) := IsChain.instDecidable h n.Next cs
    inferInstanceAs (Decidable (p = some a ∧ h[a]? = some n ∧ IsChain h n.Next cs))

/-- The elements of a chain, top first. -/
def things (cs : List (Nat × Node)) : List Thing :=
  cs.map (fun c => c.2.Data)

/-- The worlds reached from `Stack{}` by calls of `Push` and `Pop`. -/
inductive Reachable : World → Prop
  | empty (h : Heap) : Reachable (emptyStack h)
  | push (t : Thing) {w : World} : Reachable w → Reachable (Stack.Push t w)
  | pop {w w' : World} {r : Thing × Bool} : Reachable w → Stack.Pop w = .ok (r, w') → Reachable w'

/-- The text the specification asks of a join: the strings in order, with `d`
between each adjacent pair and nowhere else. -/
def joinSpec (d : String) : List String → String
  | [] => ""
  | [x] => x
  | x :: y :: r => x ++ d ++ joinSpec d (y :: r)

/-- The stack's bookkeeping: `Top` heads a chain of exactly `Size` nodes. -/
def Inv (w : World) (cs : List (Nat × Node)) : Prop :=
  IsChain w.heap w.s.Top cs ∧ w.s.Size = (cs.length : Int)

/-- One call made on the stack by a client. -/
inductive Op where
  | push (t : Thing)
  | pop
  deriving DecidableEq

/-- A finite sequence of `Push` and `Pop` calls, run in order; a fault ends the run. -/
def runOps : List Op → World → Except Fault World
  | [], w => .ok w
  | Op.push t :: ops, w => runOps ops (Stack.Push t w)
  | Op.pop :: ops, w =>
    match Stack.Pop w with
    | .error e => .error e
    | .ok (_, w) => runOps ops w

/-- Every node of `h` is found, unchanged, at the same address of `h'`. -/
def Keeps (h h' : Heap) : Prop :=
  ∀ (a : Nat) (n : Node), h[a]? = some n → h'[a]? = some n

end stack

/-! # The demo program of `go/playground/playground.go` -/

namespace playground

open stack

/-- The values a run of `main` hands to `fmt.Println`, with the results of the pops made
by its final loop. -/
structure Shown where
  /-- The first `s.JoinString("\n")`. -/
  joined1 : String
  /-- The variable `thing3`. -/
  thing3 : Thing
  /-- The variable `exists` after the first `Pop`. -/
  found : Bool
  /-- The second `s.JoinString("\n")`. -/
  joined2 : String
  /-- The result of each `Pop` made by the loop `for exists`, in call order. -/
  loopPops : List (Thing × Bool)
  /-- The value of `s.Empty()`. -/
  empty : Bool
  deriving DecidableEq

/-- The loop `for exists { _, exists = s.Pop() }`, from the current value of `exists`,
with a budget of `fuel` iterations. -/
def popLoop : Nat → Bool → World → Except Fault (List (Thing × Bool) × World)
  | _, false, w => .ok ([], w)
  | 0, true, _ => .error .fuel
  | fuel + 1, true, w =>
    match Stack.Pop w with
    | .error e => .error e
    | .ok (r, w) =>
      match popLoop fuel r.2 w with
      | .error e => .error e
      | .ok (rs, w) => .ok (r :: rs, w)

/-- The body of `func main()` from `s := stack.Stack{}` on; the four greeting lines
printed before it do not touch the stack. No node exists when the program starts. -/
def main (fuel : Nat) : Except Fault (Shown × World) :=
  -- s := stack.Stack{}
  let s := emptyStack []
  let s := Stack.Push "Thing 1" s
  let s := Stack.Push "Thing 2" s
  let s := Stack.Push "Thing 3" s
  -- fmt.Println(s.JoinString("\n"))
  match Stack.JoinString fuel "\n" s with
  | .error e => .error e
  | .ok (joined1, s) =>
    -- thing3, exists := s.Pop()
    match Stack.Pop s with
    | .error e => .error e
    | .ok ((thing3, found), s) =>
      -- fmt.Println(s.JoinString("\n"))
      match Stack.JoinString fuel "\n" s with
      | .error e => .error e
      | .ok (joined2, s) =>
        -- for exists { _, exists = s.Pop() }
        match popLoop fuel found s with
        | .error e => .error e
        | .ok (loopPops, s) =>
          -- fmt.Println("Empty:", s.Empty())
          let (empty, s) := Stack.Empty s
          .ok ({ joined1 := joined1, thing3 := thing3, found := found, joined2 := joined2,
                 loopPops := loopPops, empty := empty }, s)

end playground

/-! # The directory stack of `go/pkg/bash/bash.go`

The package keeps the variable `dirStack []string` and calls `os.Getwd` and `os.Chdir`.
The operating system is a parameter: any state type `Ω` with the two calls, each of which
answers with an error value (`none` is `nil`) and the state it leaves. A run-time panic is
an outcome of its own, carrying the process state at the point of the panic.
-/

namespace bash

/-- The two calls of package `os` that `bash.go` makes, over a state `Ω` of the operating
system; `ε` is the type of the non-nil `error` values. -/
structure OS (ε Ω : Type) where
  /-- The call `os.Getwd() (dir string, err error)`. -/
  Getwd : Ω → (String × Option ε) × Ω
  /-- The call `os.Chdir(dir string) error`. -/
  Chdir : String → Ω → Option ε × Ω

/-- The process: the operating system's state and the variable `dirStack`. -/
structure Proc (Ω : Type) where
  os : Ω
  dirStack : List String

/-- Go's run-time panics on a slice of length `len`. -/
inductive Fault where
  /-- The panic `index out of range [i] with length len`. -/
  | indexOutOfRange (i : Int) (len : Nat)
  /-- The panic `slice bounds out of range [:i]`. -/
  | sliceOutOfRange (i : Int) (len : Nat)
  deriving DecidableEq

/-- How a call of `Popd` ends: it returns an `error` value, or it panics. -/
inductive Outcome (ε Ω : Type) where
  | returned (e : Option ε) (p : Proc Ω)
  | panicked (f : Fault) (p : Proc Ω)

/-- The expression `s[i]` for an `int` index. -/
def index (s : List String) (i : Int) : Except Fault String :=
  if i < 0 then .error (.indexOutOfRange i s.length)
  else
    match s[i.toNat]? with
    | some x => .ok x
    | none => .error (.indexOutOfRange i s.length)

/-- The expression `s[:i]` for an `int` bound. Go allows `i` up to the capacity of `s`; the
length is used as the bound here, the only caller passing `len(s) - 1`. -/
def sliceTo (s : List String) (i : Int) : Except Fault (List String) :=
  if i < 0 ∨ (s.length : Int) < i then .error (.sliceOutOfRange i s.length)
  else .ok (s.take i.toNat)

/-- Function `func lastItem() string`, reading `dirStack`. -/
def lastItem (dirStack : List String) : Except Fault String :=
  let i : Int := (dirStack.length : Int) - 1
  index dirStack i

/-- Function `func pushItem(dir string)`, giving the new `dirStack`. -/
def pushItem (dir : String) (dirStack : List String) : List String :=
  dirStack ++ [dir]

/-- Function `func popItem()`, giving the new `dirStack`. -/
def popItem (dirStack : List String) : Except Fault (List String) :=
  let i : Int := (dirStack.length : Int) - 1
  sliceTo dirStack i

/-- Function `func Pushd(path string) error`. -/
def Pushd {ε Ω : Type} (os : OS ε Ω) (path : String) (p : Proc Ω) : Option ε × Proc Ω :=
  -- currDir, e := os.Getwd()
  match os.Getwd p.os with
  | ((_, some e), ω) => (some e, { p with os := ω })
  | ((currDir, none), ω) =>
    -- if e := os.Chdir(path); e != nil { return e }
    match os.Chdir path ω with
    | (some e, ω) => (some e, { p with os := ω })
    | (none, ω) =>
      -- pushItem(currDir); return nil
      (none, { os := ω, dirStack := pushItem currDir p.dirStack })

/-- Function `func Popd() error`. -/
def Popd {ε Ω : Type} (os : OS ε Ω) (p : Proc Ω) : Outcome ε Ω :=
  -- dir := lastItem()
  match lastItem p.dirStack with
  | .error f => .panicked f p
  | .ok dir =>
    -- if e := os.Chdir(dir); e != nil { return e }
    match os.Chdir dir p.os with
    | (some e, ω) => .returned (some e) { p with os := ω }
    | (none, ω) =>
      -- popItem(); return nil
      match popItem p.dirStack with
      | .error f => .panicked f { p with os := ω }
      | .ok ds => .returned none { os := ω, dirStack := ds }

/-- One call received by the operating system. -/
inductive Call where
  | getwd
  | chdir (dir : String)
  deriving DecidableEq

/-- A state of the operating system that is the working directory together with the log of
the calls received so far, oldest first. -/
structure Sys where
  cwd : String
  calls : List Call
  deriving DecidableEq

/-- An operating system over `Sys`: a successful `Chdir(p)` sets the working directory to
`p`, a successful `Getwd` returns it, and every call is logged. Which calls fail, and with
what error, is given by `getwdErr` (from the working directory) and `chdirErr` (from the
target). -/
def sysOS {ε : Type} (getwdErr : String → Option ε) (chdirErr : String → Option ε) : OS ε Sys where
  Getwd := fun ω =>
    match getwdErr ω.cwd with
    | some e => (("", some e), { ω with calls := ω.calls ++ [Call.getwd] })
    | none => ((ω.cwd, none), { ω with calls := ω.calls ++ [Call.getwd] })
  Chdir := fun dir ω =>
    match chdirErr dir with
    | some e => (some e, { ω with calls := ω.calls ++ [Call.chdir dir] })
    | none => (none, { cwd := dir, calls := ω.calls ++ [Call.chdir dir] })

end bash

/-! # The error helper of `go/cookies/errors.go` -/

namespace cookies

/-- A non-nil value of Go's `error` interface: an error made elsewhere, known by its text,
or an error that carries a message and the error it was made from. -/
inductive Err where
  | plain (text : String)
  | wrapped (msg : String) (cause : Err)
  deriving DecidableEq

/-- A value of type `error`; `none` is `nil`. -/
abbrev GoError := Option Err

/-- The textual message an error carries. -/
def Err.message : Err → String
  | .plain text => text
  | .wrapped msg _ => msg

/-- The underlying cause an error chains, if it has one. -/
def Err.cause : Err → GoError
  | .plain _ => none
  | .wrapped _ cause => some cause

/-- Modelled from the spec: the function `errors.Wrap` of `github.com/pkg/errors`, whose
source is not in the repository. The specification has it produce "a new error whose textual
message is the formatted string, chaining the original error as an underlying cause for
later inspection". On a `nil` error, where the specification is silent, `nil` is returned. -/
def errorsWrap : GoError → String → GoError
  | none, _ => none
  | some e, message => some (Err.wrapped message e)

/-- Function `func Wrap(e error, m string, args ...interface{}) error`. The formatter
`fmt.Sprintf` is a parameter, `α` standing for `interface{}`. -/
def Wrap {α : Type} (Sprintf : String → List α → String) (e : GoError) (m : String)
    (args : List α) : GoError :=
  -- m = fmt.Sprintf(m, args...)
  let m := Sprintf m args
  -- return errors.Wrap(e, m)
  errorsWrap e m

end cookies

namespace stack

/-! ## Chains -/

theorem getElem?_append_of_some {h : Heap} {a : Nat} {n : Node} (hn : h[a]? = some n)
    (h' : Heap) : (h ++ h')[a]? = some n := by
  have hlt : a < h.length := by
    by_contra hge
    rw [List.getElem?_eq_none (Nat.le_of_not_lt hge)] at hn
    cases hn
  rw [List.getElem?_append_left hlt]
  exact hn

/-- Allocation leaves every chain in place. -/
theorem IsChain.append {h : Heap} (h' : Heap) :
    ∀ {p : Ptr} {cs : List (Nat × Node)}, IsChain h p cs → IsChain (h ++ h') p cs := by
  intro p cs
  induction cs generalizing p with
  | nil => intro hc; exact hc
  | cons c cs ih =>
    obtain ⟨a, n⟩ := c
    intro hc
    exact ⟨hc.1, getElem?_append_of_some hc.2.1 h', ih hc.2.2⟩

/-- A pointer heads at most one chain. -/
theorem IsChain.unique {h : Heap} :
    ∀ {p : Ptr} {cs cs' : List (Nat × Node)}, IsChain h p cs → IsChain h p cs' → cs = cs' := by
  intro p cs
  induction cs generalizing p with
  | nil =>
    intro cs' hc hc'
    cases cs' with
    | nil => rfl
    | cons c cs' =>
      obtain ⟨a, n⟩ := c
      have h1 : p = none := hc
      have h2 : p = some a := hc'.1
      rw [h1] at h2
      cases h2
  | cons c cs ih =>
    obtain ⟨a, n⟩ := c
    intro cs' hc hc'
    cases cs' with
    | nil =>
      have h1 : p = none := hc'
      have h2 : p = some a := hc.1
      rw [h1] at h2
      cases h2
    | cons c' cs' =>
      obtain ⟨a', n'⟩ := c'
      have e1 : some a = some a' := hc.1.symm.trans hc'.1
      cases e1
      have e2 : some n = some n' := hc.2.1.symm.trans hc'.2.1
      cases e2
      rw [ih hc.2.2 hc'.2.2]

theorem IsChain.top_eq_none_iff {h : Heap} {p : Ptr} {cs : List (Nat × Node)}
    (hc : IsChain h p cs) : p = none ↔ cs = [] := by
  cases cs with
  | nil => exact ⟨fun _ => rfl, fun _ => hc⟩
  | cons c cs =>
    obtain ⟨a, n⟩ := c
    constructor
    · intro hp
      have h2 : p = some a := hc.1
      rw [hp] at h2
      cases h2
    · intro hnil
      cases hnil

theorem Inv.emptyStack (h : Heap) : Inv (emptyStack h) [] :=
  ⟨rfl, rfl⟩

theorem Inv.push {w : World} {cs : List (Nat × Node)} (hi : Inv w cs) (t : Thing) :
    Inv (Stack.Push t w) ((w.heap.length, { Data := t, Next := w.s.Top }) :: cs) := by
  refine ⟨⟨rfl, ?_, ?_⟩, ?_⟩
  · show (w.heap ++ [{ Data := t, Next := w.s.Top }])[w.heap.length]? = _
    simp
  · exact IsChain.append _ hi.1
  · show w.s.Size + 1 = _
    rw [hi.2]
    simp

theorem Peek_of_size_zero {w : World} (hz : w.s.Size = 0) :
    Stack.Peek w = .ok (("", false), w) := by
  simp [Stack.Peek, hz]

theorem Pop_of_size_zero {w : World} (hz : w.s.Size = 0) :
    Stack.Pop w = .ok (("", false), w) := by
  simp [Stack.Pop, Peek_of_size_zero hz]

theorem deref_of_chain_cons {h : Heap} {p : Ptr} {a : Nat} {n : Node} {cs : List (Nat × Node)}
    (hc : IsChain h p ((a, n) :: cs)) : deref h p = .ok n := by
  rw [hc.1]
  simp [deref, hc.2.1]

theorem Peek_of_inv_cons {w : World} {a : Nat} {n : Node} {cs : List (Nat × Node)}
    (hi : Inv w ((a, n) :: cs)) : Stack.Peek w = .ok ((n.Data, true), w) := by
  have hs : w.s.Size ≠ 0 := by
    rw [hi.2]
    simp
    omega
  simp [Stack.Peek, hs, deref_of_chain_cons hi.1]

theorem Pop_of_inv_cons {w : World} {a : Nat} {n : Node} {cs : List (Nat × Node)}
    (hi : Inv w ((a, n) :: cs)) :
    Stack.Pop w = .ok ((n.Data, true), { w with s := { Top := n.Next, Size := w.s.Size - 1 } }) := by
  simp [Stack.Pop, Peek_of_inv_cons hi, deref_of_chain_cons hi.1]

theorem Inv.pop {w : World} {a : Nat} {n : Node} {cs : List (Nat × Node)}
    (hi : Inv w ((a, n) :: cs)) :
    Inv { w with s := { Top := n.Next, Size := w.s.Size - 1 } } cs := by
  refine ⟨hi.1.2.2, ?_⟩
  show w.s.Size - 1 = _
  rw [hi.2]
  simp

/-- Every reachable world satisfies the bookkeeping invariant. -/
theorem Reachable.inv {w : World} (hr : Reachable w) : ∃ cs, Inv w cs := by
  induction hr with
  | empty h => exact ⟨[], Inv.emptyStack h⟩
  | push t _ ih =>
    obtain ⟨cs, hi⟩ := ih
    exact ⟨_, hi.push t⟩
  | @pop w w' r _ hp ih =>
    obtain ⟨cs, hi⟩ := ih
    cases cs with
    | nil =>
      have hz : w.s.Size = 0 := by rw [hi.2]; rfl
      rw [Pop_of_size_zero hz] at hp
      cases hp
      exact ⟨[], hi⟩
    | cons c cs =>
      obtain ⟨a, n⟩ := c
      rw [Pop_of_inv_cons hi] at hp
      cases hp
      exact ⟨cs, hi.pop⟩

/-! ## Runs of pushes and pops -/

theorem pushAll_inv (xs : List Thing) :
    ∀ {w : World} {cs : List (Nat × Node)}, Inv w cs →
      ∃ cs', Inv (pushAll xs w) cs' ∧ things cs' = xs.reverse ++ things cs := by
  induction xs with
  | nil => intro w cs hi; exact ⟨cs, hi, by simp⟩
  | cons x xs ih =>
    intro w cs hi
    obtain ⟨cs', hi', ht⟩ := ih (hi.push x)
    refine ⟨cs', hi', ?_⟩
    rw [ht]
    simp [things]

theorem popN_inv :
    ∀ {cs : List (Nat × Node)} {w : World}, Inv w cs →
      popN cs.length w
        = .ok ((things cs).map (fun x => (x, true)), { w with s := { Top := none, Size := 0 } }) := by
  intro cs
  induction cs with
  | nil =>
    intro w hi
    have h1 : w.s.Top = none := hi.1
    have h2 : w.s.Size = 0 := hi.2
    obtain ⟨hp, ⟨t, z⟩⟩ := w
    simp only at h1 h2
    subst h1 h2
    rfl
  | cons c cs ih =>
    obtain ⟨a, n⟩ := c
    intro w hi
    simp [popN, Pop_of_inv_cons hi, ih hi.pop, things]

/-- C1 (LIFO law). From `Stack{}`, pushing the elements of `xs` in order and then popping
`len(xs)` times returns, in call order, the elements of `xs` reversed, each with
`found = true`: the `i`-th pop returns `(xs[len(xs)-1-i], true)`. Afterwards `Size == 0`,
`Top == nil` and `Empty()` is true. -/
theorem C1_lifo_law (h : Heap) (xs : List Thing) :
    ∃ (rs : List (Thing × Bool)) (w' : World),
      popN xs.length (pushAll xs (emptyStack h)) = .ok (rs, w')
      ∧ rs = xs.reverse.map (fun x => (x, true))
      ∧ (∀ i (hlt : i < xs.length), rs[i]? = some (xs[xs.length - 1 - i], true))
      ∧ w'.s.Size = 0 ∧ w'.s.Top = none ∧ Stack.Empty w' = (true, w') := by
  obtain ⟨cs, hi, ht⟩ := pushAll_inv xs (Inv.emptyStack h)
  have hlen : cs.length = xs.length := by
    have := congrArg List.length ht
    simpa [things] using this
  have ht' : things cs = xs.reverse := by simpa [things] using ht
  refine ⟨xs.reverse.map (fun x => (x, true)),
    { (pushAll xs (emptyStack h)) with s := { Top := none, Size := 0 } },
    ?_, rfl, ?_, rfl, rfl, rfl⟩
  · rw [← hlen, popN_inv hi, ht']
  · intro i hlt
    rw [List.getElem?_map, List.getElem?_reverse hlt,
      List.getElem?_eq_getElem (by omega : xs.length - 1 - i < xs.length)]
    rfl

/-- Witness of C1 on the three pushes `a`, `b`, `c`. -/
theorem C1_lifo_law_witness :
    ∃ (rs : List (Thing × Bool)) (w' : World),
      popN 3 (pushAll ["a", "b", "c"] (emptyStack [])) = .ok (rs, w')
      ∧ rs = [("c", true), ("b", true), ("a", true)]
      ∧ (∀ i (_ : i < 3), rs[i]? = some (["a", "b", "c"][3 - 1 - i], true))
      ∧ w'.s.Size = 0 ∧ w'.s.Top = none ∧ Stack.Empty w' = (true, w') :=
  C1_lifo_law [] ["a", "b", "c"]

/-! ## The join -/

theorem joinSpec_cons_cons (d x y : String) (r : List String) :
    joinSpec d (x :: y :: r) = x ++ d ++ joinSpec d (y :: r) := rfl

theorem intercalate_go_eq (d : String) :
    ∀ (l : List String) (acc : String),
      String.intercalate.go acc d l
        = match l with
          | [] => acc
          | y :: r => acc ++ d ++ joinSpec d (y :: r) := by
  intro l
  induction l with
  | nil => intro acc; rfl
  | cons y r ih =>
    intro acc
    rw [String.intercalate.go, ih]
    cases r with
    | nil => rfl
    | cons z r => simp only [joinSpec_cons_cons, String.append_assoc]

/-- The join of the specification is the library's `intercalate`. -/
theorem joinSpec_eq_intercalate (d : String) (l : List String) :
    joinSpec d l = d.intercalate l := by
  cases l with
  | nil => rfl
  | cons x r =>
    rw [String.intercalate, intercalate_go_eq]
    cases r with
    | nil => rfl
    | cons y r => simp only [joinSpec_cons_cons, String.append_assoc]

theorem loop_join_of_chain (d : String) (w : World) :
    ∀ (cs : List (Nat × Node)) (p : Ptr) (sb : String) (fuel : Nat),
      IsChain w.heap p cs → cs.length ≤ fuel →
      foreachNode.loop (JoinString.f d) fuel p sb w
        = .ok (sb ++ joinSpec d (cs.map (fun c => c.2.String)), w) := by
  intro cs
  induction cs with
  | nil =>
    intro p sb fuel hc _
    have hp : p = none := hc
    subst hp
    cases fuel <;> simp [foreachNode.loop, joinSpec]
  | cons c cs ih =>
    obtain ⟨a, n⟩ := c
    intro p sb fuel hc hf
    have hp : p = some a := hc.1
    subst hp
    cases fuel with
    | zero => simp at hf
    | succ k =>
      have hk : cs.length ≤ k := by simpa using hf
      have hd : deref w.heap (some a) = .ok n := deref_of_chain_cons hc
      cases cs with
      | nil =>
        have hn : n.Next = none := hc.2.2
        simp [foreachNode.loop, JoinString.f, hd, hn, joinSpec]
      | cons c' cs' =>
        obtain ⟨a', n'⟩ := c'
        have hn : n.Next = some a' := hc.2.2.1
        have := ih n.Next (sb ++ n.String ++ d) k hc.2.2 hk
        rw [hn] at this
        simp only [String.append_assoc, List.map_cons] at this
        simp [foreachNode.loop, JoinString.f, hd, hn, this, joinSpec, String.append_assoc]

theorem JoinString_of_chain {w : World} {cs : List (Nat × Node)} (hc : IsChain w.heap w.s.Top cs)
    (d : String) {fuel : Nat} (hf : cs.length ≤ fuel) :
    Stack.JoinString fuel d w = .ok (joinSpec d (things cs), w) := by
  have := loop_join_of_chain d w cs w.s.Top "" fuel hc hf
  simpa [Stack.JoinString, Stack.foreachNode, things, Node.String, sprintfPlusV] using this

/-- C2. For the stack got from `Stack{}` by pushing `xs` in order, `JoinString(d)` returns
(given a step budget of at least `len(xs)`) the elements of `xs` in reverse order, each
rendered as its own text, with `d` between adjacent elements and no leading or trailing
`d`; the memory is left as it was. -/
theorem C2_joinString_pushAll (h : Heap) (xs : List Thing) (d : String) (fuel : Nat)
    (hf : xs.length ≤ fuel) :
    Stack.JoinString fuel d (pushAll xs (emptyStack h))
      = .ok (joinSpec d (xs.reverse.map sprintfPlusV), pushAll xs (emptyStack h)) := by
  obtain ⟨cs, hi, ht⟩ := pushAll_inv xs (Inv.emptyStack h)
  have hlen : cs.length = xs.length := by
    have := congrArg List.length ht
    simpa [things] using this
  have ht' : things cs = xs.reverse := by simpa [things] using ht
  rw [JoinString_of_chain hi.1 d (by omega), ht']
  congr 3
  exact (List.map_id _).symm

/-- Witness of C2: pushing `A`, `B`, `C` gives `"C" + d + "B" + d + "A"`, here with
`d = "--"`. -/
theorem C2_joinString_pushAll_witness :
    3 ≤ 3 ∧ Stack.JoinString 3 "--" (pushAll ["A", "B", "C"] (emptyStack []))
      = .ok ("C" ++ "--" ++ "B" ++ "--" ++ "A", pushAll ["A", "B", "C"] (emptyStack [])) :=
  ⟨by decide, C2_joinString_pushAll [] ["A", "B", "C"] "--" 3 (by decide)⟩

/-! ## The size invariant and the empty stack -/

/-- C3 (size invariant). In every world reached from `Stack{}` by `Push` and `Pop`, `Size`
is non-negative, `Top` heads exactly one chain of nodes ending in `nil` and `Size` is the
number of its nodes, `Size == 0` exactly when `Top == nil`, and `Empty()` is true exactly
when `Top == nil`. -/
theorem C3_size_invariant (w : World) (hr : Reachable w) :
    0 ≤ w.s.Size
    ∧ (∃ cs, IsChain w.heap w.s.Top cs ∧ w.s.Size = (cs.length : Int)
        ∧ ∀ cs', IsChain w.heap w.s.Top cs' → cs' = cs)
    ∧ (w.s.Size = 0 ↔ w.s.Top = none)
    ∧ ((Stack.Empty w).1 = true ↔ w.s.Top = none) := by
  obtain ⟨cs, hi⟩ := hr.inv
  have hiff : w.s.Size = 0 ↔ w.s.Top = none := by
    rw [hi.1.top_eq_none_iff, hi.2]
    cases cs <;> simp
    omega
  refine ⟨?_, ⟨cs, hi.1, hi.2, fun cs' hc' => IsChain.unique hc' hi.1⟩, hiff, ?_⟩
  · rw [hi.2]
    exact Int.natCast_nonneg _
  · rw [← hiff]
    simp [Stack.Empty]

/-- Witness of C3: the world after `Push("a")`, `Push("b")`, `Pop()`. -/
theorem C3_size_invariant_witness :
    Reachable { heap := [⟨"a", none⟩, ⟨"b", some 0⟩], s := { Top := some 0, Size := 1 } }
    ∧ (0 : Int) ≤ 1
    ∧ (∃ cs, IsChain [⟨"a", none⟩, ⟨"b", some 0⟩] (some 0) cs ∧ (1 : Int) = (cs.length : Int)
        ∧ ∀ cs', IsChain [⟨"a", none⟩, ⟨"b", some 0⟩] (some 0) cs' → cs' = cs)
    ∧ ((1 : Int) = 0 ↔ some 0 = (none : Ptr))
    ∧ ((Stack.Empty
          { heap := [⟨"a", none⟩, ⟨"b", some 0⟩], s := { Top := some 0, Size := 1 } }).1 = true
        ↔ some 0 = (none : Ptr)) :=
  have hr : Reachable { heap := [⟨"a", none⟩, ⟨"b", some 0⟩], s := { Top := some 0, Size := 1 } } :=
    Reachable.pop (r := ("b", true))
      (Reachable.push "b" (Reachable.push "a" (Reachable.empty []))) rfl
  ⟨hr, C3_size_invariant _ hr⟩

/-- C4. On every stack with `Size == 0`, whatever its `Top`, `Pop` returns `("", false)`
without a fault and leaves the memory, `Top` and `Size` as they were. In particular, after
the pushes of `xs` from `Stack{}` and `len(xs)` pops, one more `Pop` returns
`found == false` and the stack is still empty. -/
theorem C4_pop_empty (w : World) (hz : w.s.Size = 0) (h : Heap) (xs : List Thing) :
    Stack.Pop w = .ok (("", false), w)
    ∧ ∃ (rs : List (Thing × Bool)) (w' : World),
        popN xs.length (pushAll xs (emptyStack h)) = .ok (rs, w')
        ∧ Stack.Pop w' = .ok (("", false), w')
        ∧ w'.s.Size = 0 ∧ w'.s.Top = none ∧ Stack.Empty w' = (true, w') := by
  refine ⟨Pop_of_size_zero hz, ?_⟩
  obtain ⟨cs, hi, ht⟩ := pushAll_inv xs (Inv.emptyStack h)
  have hlen : cs.length = xs.length := by
    have := congrArg List.length ht
    simpa [things] using this
  refine ⟨(things cs).map (fun x => (x, true)),
    { (pushAll xs (emptyStack h)) with s := { Top := none, Size := 0 } },
    ?_, Pop_of_size_zero rfl, rfl, rfl, rfl⟩
  rw [← hlen, popN_inv hi]

/-- Witness of C4: a stack whose `Size` is 0 though its `Top` is not `nil`, and the run
of two pushes and two pops. -/
theorem C4_pop_empty_witness :
    (0 : Int) = 0
    ∧ Stack.Pop { heap := [⟨"a", none⟩], s := { Top := some 0, Size := 0 } }
        = .ok (("", false), { heap := [⟨"a", none⟩], s := { Top := some 0, Size := 0 } })
    ∧ ∃ (rs : List (Thing × Bool)) (w' : World),
        popN 2 (pushAll ["x", "y"] (emptyStack [])) = .ok (rs, w')
        ∧ Stack.Pop w' = .ok (("", false), w')
        ∧ w'.s.Size = 0 ∧ w'.s.Top = none ∧ Stack.Empty w' = (true, w') :=
  ⟨rfl, C4_pop_empty { heap := [⟨"a", none⟩], s := { Top := some 0, Size := 0 } } rfl
    [] ["x", "y"]⟩

/-- C5. On every reachable stack `Pop` returns the pair `(element, found)` that `Peek`
returns there. When `found` is true the node `Top` points to is read without a fault and the
new stack has `Top ==` that node's `Next` and `Size ==` the old `Size - 1`, the heap being
untouched; when `found` is false the world after `Pop` is the world before. -/
theorem C5_pop_is_peek_step (w : World) (hr : Reachable w) :
    ∃ (t : Thing) (found : Bool),
      Stack.Peek w = .ok ((t, found), w)
      ∧ (found = true →
          ∃ n, deref w.heap w.s.Top = .ok n
            ∧ Stack.Pop w
                = .ok ((t, true), { heap := w.heap, s := { Top := n.Next, Size := w.s.Size - 1 } }))
      ∧ (found = false → Stack.Pop w = .ok ((t, false), w)) := by
  obtain ⟨cs, hi⟩ := hr.inv
  cases cs with
  | nil =>
    have hz : w.s.Size = 0 := by rw [hi.2]; rfl
    exact ⟨"", false, Peek_of_size_zero hz, fun hf => (by cases hf), fun _ => Pop_of_size_zero hz⟩
  | cons c cs =>
    obtain ⟨a, n⟩ := c
    refine ⟨n.Data, true, Peek_of_inv_cons hi, fun _ => ?_, fun hf => (by cases hf)⟩
    exact ⟨n, deref_of_chain_cons hi.1, Pop_of_inv_cons hi⟩

/-- Witness of C5: the stack after `Push("a")`, `Push("b")`. -/
theorem C5_pop_is_peek_step_witness :
    Reachable (Stack.Push "b" (Stack.Push "a" (emptyStack [])))
    ∧ ∃ (t : Thing) (found : Bool),
      Stack.Peek (Stack.Push "b" (Stack.Push "a" (emptyStack [])))
        = .ok ((t, found), Stack.Push "b" (Stack.Push "a" (emptyStack [])))
      ∧ (found = true →
          ∃ n, deref (Stack.Push "b" (Stack.Push "a" (emptyStack []))).heap
                (Stack.Push "b" (Stack.Push "a" (emptyStack []))).s.Top = .ok n
            ∧ Stack.Pop (Stack.Push "b" (Stack.Push "a" (emptyStack [])))
                = .ok ((t, true),
                    { heap := (Stack.Push "b" (Stack.Push "a" (emptyStack []))).heap,
                      s := { Top := n.Next,
                             Size := (Stack.Push "b" (Stack.Push "a" (emptyStack []))).s.Size - 1 } }))
      ∧ (found = false →
          Stack.Pop (Stack.Push "b" (Stack.Push "a" (emptyStack [])))
            = .ok ((t, false), Stack.Push "b" (Stack.Push "a" (emptyStack [])))) :=
  have hr : Reachable (Stack.Push "b" (Stack.Push "a" (emptyStack []))) :=
    Reachable.push "b" (Reachable.push "a" (Reachable.empty []))
  ⟨hr, C5_pop_is_peek_step _ hr⟩

/-! ## Peek, the observers and Push -/

/-- C6, counterexample. A `Stack` value with `Top == nil` and `Size == 1`, which a caller
can build since both fields are exported: `Peek` passes the `Size == 0` test and
dereferences the `nil` `Top`. -/
theorem C6_peek_nil_top_counterexample :
    Stack.Peek { heap := [], s := { Top := none, Size := 1 } } = .error Fault.nilDeref := by
  rfl

/-- C6, amended. For every `Stack` value whose `Top` is not `nil` whenever its `Size` is
not 0, `Peek` never dereferences a `nil` `Top`: it returns `""` with `found == false` when
`Size == 0`, and otherwise the element stored in the `Top` node with `found == true`; the
memory is left as it was. -/
theorem C6_peek_amended (w : World)
    (hTop : w.s.Size ≠ 0 → ∃ a, w.s.Top = some a ∧ a < w.heap.length) :
    (w.s.Size = 0 → Stack.Peek w = .ok (("", false), w))
    ∧ (w.s.Size ≠ 0 →
        ∃ n, deref w.heap w.s.Top = .ok n ∧ Stack.Peek w = .ok ((n.Data, true), w)) := by
  refine ⟨fun hz => Peek_of_size_zero hz, fun hnz => ?_⟩
  obtain ⟨a, ha, hlt⟩ := hTop hnz
  refine ⟨w.heap[a], ?_, ?_⟩
  · simp [deref, ha, List.getElem?_eq_getElem hlt]
  · simp [Stack.Peek, hnz, deref, ha, List.getElem?_eq_getElem hlt]

/-- Witness of the amended C6: `Size` is 5 and `Top` points to the only node. -/
theorem C6_peek_amended_witness :
    ((5 : Int) ≠ 0 → ∃ a, some 0 = some a ∧ a < [(⟨"a", none⟩ : Node)].length)
    ∧ ((5 : Int) = 0 →
        Stack.Peek { heap := [⟨"a", none⟩], s := { Top := some 0, Size := 5 } }
          = .ok (("", false), { heap := [⟨"a", none⟩], s := { Top := some 0, Size := 5 } }))
    ∧ ((5 : Int) ≠ 0 →
        ∃ n, deref [⟨"a", none⟩] (some 0) = .ok n
          ∧ Stack.Peek { heap := [⟨"a", none⟩], s := { Top := some 0, Size := 5 } }
              = .ok ((n.Data, true),
                  { heap := [⟨"a", none⟩], s := { Top := some 0, Size := 5 } })) :=
  have hTop : (5 : Int) ≠ 0 → ∃ a, some 0 = some a ∧ a < [(⟨"a", none⟩ : Node)].length :=
    fun _ => ⟨0, rfl, by decide⟩
  ⟨hTop, C6_peek_amended { heap := [⟨"a", none⟩], s := { Top := some 0, Size := 5 } } hTop⟩

/-- C7. On every reachable stack the observers are read-only: `Peek`, `Empty`,
`JoinString(d)` and `String` return (the traversals given a step budget of at least `Size`)
and leave the whole memory, that is `Top`, `Size` and every node's `Data` and `Next`, as it
was; so a second `Peek` returns the pair the first returned. -/
theorem C7_observers_read_only (w : World) (hr : Reachable w) (d : String) (fuel : Nat)
    (hf : w.s.Size ≤ (fuel : Int)) :
    (∃ r, Stack.Peek w = .ok (r, w)
        ∧ ∀ r1 w1, Stack.Peek w = .ok (r1, w1) → w1 = w ∧ Stack.Peek w1 = .ok (r1, w1))
    ∧ (Stack.Empty w).2 = w
    ∧ (∃ str, Stack.JoinString fuel d w = .ok (str, w))
    ∧ (∃ str, Stack.String fuel w = .ok (str, w)) := by
  obtain ⟨cs, hi⟩ := hr.inv
  have hlen : cs.length ≤ fuel := by
    have := hi.2 ▸ hf
    exact_mod_cast this
  have hpeek : ∃ r, Stack.Peek w = .ok (r, w) := by
    cases cs with
    | nil => exact ⟨_, Peek_of_size_zero (by rw [hi.2]; rfl)⟩
    | cons c cs =>
      obtain ⟨a, n⟩ := c
      exact ⟨_, Peek_of_inv_cons hi⟩
  obtain ⟨r, hp⟩ := hpeek
  refine ⟨⟨r, hp, ?_⟩, rfl, ⟨_, JoinString_of_chain hi.1 d hlen⟩,
    ⟨_, JoinString_of_chain hi.1 ", " hlen⟩⟩
  intro r1 w1 h1
  rw [hp] at h1
  cases h1
  exact ⟨rfl, hp⟩

/-- Witness of C7: the stack after `Push("a")`, `Push("b")`, with a budget of two steps. -/
theorem C7_observers_read_only_witness :
    Reachable (Stack.Push "b" (Stack.Push "a" (emptyStack [])))
    ∧ (Stack.Push "b" (Stack.Push "a" (emptyStack []))).s.Size ≤ ((2 : Nat) : Int)
    ∧ (∃ r, Stack.Peek (Stack.Push "b" (Stack.Push "a" (emptyStack [])))
          = .ok (r, Stack.Push "b" (Stack.Push "a" (emptyStack [])))
        ∧ ∀ r1 w1, Stack.Peek (Stack.Push "b" (Stack.Push "a" (emptyStack []))) = .ok (r1, w1) →
            w1 = Stack.Push "b" (Stack.Push "a" (emptyStack [])) ∧ Stack.Peek w1 = .ok (r1, w1))
    ∧ (Stack.Empty (Stack.Push "b" (Stack.Push "a" (emptyStack [])))).2
        = Stack.Push "b" (Stack.Push "a" (emptyStack []))
    ∧ (∃ str, Stack.JoinString 2 "/" (Stack.Push "b" (Stack.Push "a" (emptyStack [])))
          = .ok (str, Stack.Push "b" (Stack.Push "a" (emptyStack []))))
    ∧ (∃ str, Stack.String 2 (Stack.Push "b" (Stack.Push "a" (emptyStack [])))
          = .ok (str, Stack.Push "b" (Stack.Push "a" (emptyStack [])))) :=
  have hr : Reachable (Stack.Push "b" (Stack.Push "a" (emptyStack []))) :=
    Reachable.push "b" (Reachable.push "a" (Reachable.empty []))
  have hf : (Stack.Push "b" (Stack.Push "a" (emptyStack []))).s.Size ≤ ((2 : Nat) : Int) := by
    decide
  ⟨hr, hf, C7_observers_read_only _ hr "/" 2 hf⟩

theorem wrapInt_of_isInt {x : Int} (hx : IsInt x) : wrapInt x = x := by
  obtain ⟨h1, h2⟩ := hx
  unfold minInt at h1
  unfold maxInt at h2
  unfold wrapInt minInt
  omega

theorem wrapInt_isInt (x : Int) : IsInt (wrapInt x) := by
  unfold IsInt wrapInt minInt maxInt
  omega

/-- While `Size` is an `int` below the largest, the machine increment is the exact sum. -/
theorem Push64_eq_Push (x : Thing) {w : World} (hint : IsInt w.s.Size)
    (hlt : w.s.Size < maxInt) : Stack.Push64 x w = Stack.Push x w := by
  have hsum : IsInt (w.s.Size + 1) := by
    obtain ⟨h1, h2⟩ := hint
    unfold minInt at h1
    unfold maxInt at hlt
    unfold IsInt minInt maxInt
    omega
  simp only [Stack.Push64, Stack.Push, wrapInt_of_isInt hsum]

/-- C8, counterexample. On the `Stack` value with `Size` the largest `int`, which a caller
can build since the field is exported, `Push` leaves `Size` at the smallest `int`, not at
the old `Size + 1`. -/
theorem C8_push_size_wraps_counterexample :
    (Stack.Push64 "x" { heap := [], s := { Top := none, Size := 9223372036854775807 } }).s.Size
      = -9223372036854775808
    ∧ (Stack.Push64 "x" { heap := [], s := { Top := none, Size := 9223372036854775807 } }).s.Size
      ≠ 9223372036854775807 + 1 := by
  have h : (Stack.Push64 "x"
      { heap := [], s := { Top := none, Size := 9223372036854775807 } }).s.Size
      = -9223372036854775808 := by
    show wrapInt (9223372036854775807 + 1) = -9223372036854775808
    unfold wrapInt minInt
    omega
  refine ⟨h, ?_⟩
  rw [h]
  omega

/-- C8, amended (Push postcondition). For every stack, its `Size` any value of `int`, and
every element `x`, `Push(x)` returns without a fault; `Top` becomes a node at a fresh address
holding `Data == x` and `Next ==` the old `Top`; `Size` becomes the old `Size + 1` when the
old `Size` is below the largest `int`, and the smallest `int` when it is the largest; every
node allocated before keeps its address and contents, so the chain the old `Top` headed is,
unchanged, the chain below the new top node; and `Peek` then returns `(x, true)` when the
old `Size` was `>= 0`. -/
theorem C8_push_amended (w : World) (x : Thing) (hint : IsInt w.s.Size) :
    (Stack.Push64 x w).s.Top = some w.heap.length
    ∧ w.heap[w.heap.length]? = none
    ∧ deref (Stack.Push64 x w).heap (Stack.Push64 x w).s.Top
        = .ok { Data := x, Next := w.s.Top }
    ∧ IsInt (Stack.Push64 x w).s.Size
    ∧ (w.s.Size < maxInt → (Stack.Push64 x w).s.Size = w.s.Size + 1)
    ∧ (w.s.Size = maxInt → (Stack.Push64 x w).s.Size = minInt)
    ∧ (∀ (a : Nat) (n : Node), w.heap[a]? = some n → (Stack.Push64 x w).heap[a]? = some n)
    ∧ (∀ cs, IsChain w.heap w.s.Top cs →
        IsChain (Stack.Push64 x w).heap (Stack.Push64 x w).s.Top
          ((w.heap.length, { Data := x, Next := w.s.Top }) :: cs))
    ∧ (0 ≤ w.s.Size →
        Stack.Peek (Stack.Push64 x w) = .ok ((x, true), Stack.Push64 x w)) := by
  have hnew : (Stack.Push64 x w).heap[w.heap.length]? = some { Data := x, Next := w.s.Top } := by
    show (w.heap ++ [{ Data := x, Next := w.s.Top }])[w.heap.length]? = _
    simp
  have hd : deref (Stack.Push64 x w).heap (Stack.Push64 x w).s.Top
      = .ok { Data := x, Next := w.s.Top } := by
    show deref (Stack.Push64 x w).heap (some w.heap.length) = _
    simp [deref, hnew]
  have hsize : (Stack.Push64 x w).s.Size = wrapInt (w.s.Size + 1) := rfl
  refine ⟨rfl, by simp, hd, ?_, ?_, ?_, ?_, ?_, ?_⟩
  · rw [hsize]
    exact wrapInt_isInt _
  · intro hlt
    rw [Push64_eq_Push x hint hlt]
    rfl
  · intro hmax
    rw [hsize, hmax]
    unfold wrapInt minInt maxInt
    omega
  · intro a n hn
    exact getElem?_append_of_some hn _
  · intro cs hc
    exact ⟨rfl, hnew, IsChain.append _ hc⟩
  · intro hs
    have hne : (Stack.Push64 x w).s.Size ≠ 0 := by
      rw [hsize]
      obtain ⟨h1, h2⟩ := hint
      unfold maxInt at h2
      unfold wrapInt minInt
      omega
    simp [Stack.Peek, hne, hd]

/-- Witness of the amended C8: pushing `"b"` on the stack that holds `"a"`. -/
theorem C8_push_amended_witness :
    IsInt (1 : Int)
    ∧ Stack.Push64 "b" { heap := [⟨"a", none⟩], s := { Top := some 0, Size := 1 } }
      = { heap := [⟨"a", none⟩, ⟨"b", some 0⟩], s := { Top := some 1, Size := 2 } }
    ∧ Stack.Peek (Stack.Push64 "b" { heap := [⟨"a", none⟩], s := { Top := some 0, Size := 1 } })
      = .ok (("b", true),
          Stack.Push64 "b" { heap := [⟨"a", none⟩], s := { Top := some 0, Size := 1 } }) :=
  have hint : IsInt (1 : Int) := by decide
  ⟨hint, by decide,
    (C8_push_amended { heap := [⟨"a", none⟩], s := { Top := some 0, Size := 1 } }
      "b" hint).2.2.2.2.2.2.2.2 (by decide)⟩

/-! ## JoinString at the edges, and String -/

/-- C9 (JoinString edge cases). For every delimiter `d`: on a stack whose `Top` is `nil`,
`JoinString(d)` returns `""` (with any step budget); on a stack holding exactly one element
`x`, its `Top` node having `Data == x` and `Next == nil`, it returns exactly `x`, with no
`d`; this is the case after a single `Push(x)` on `Stack{}`. -/
theorem C9_joinString_edges (d : String) (fuel : Nat) (w0 w1 : World) (a : Nat) (x : Thing)
    (h0 : w0.s.Top = none)
    (h1 : w1.s.Top = some a) (hnode : w1.heap[a]? = some { Data := x, Next := none }) :
    Stack.JoinString fuel d w0 = .ok ("", w0)
    ∧ Stack.JoinString (fuel + 1) d w1 = .ok (x, w1)
    ∧ ∀ h, Stack.JoinString (fuel + 1) d (Stack.Push x (emptyStack h))
        = .ok (x, Stack.Push x (emptyStack h)) := by
  have hc0 : IsChain w0.heap w0.s.Top [] := h0
  have hc1 : IsChain w1.heap w1.s.Top [(a, { Data := x, Next := none })] := ⟨h1, hnode, rfl⟩
  refine ⟨?_, ?_, fun h => ?_⟩
  · simpa [things, joinSpec] using JoinString_of_chain hc0 d (Nat.zero_le fuel)
  · simpa [things, joinSpec] using JoinString_of_chain hc1 d (Nat.succ_le_succ (Nat.zero_le fuel))
  · have hi := (Inv.emptyStack h).push x
    simpa [things, joinSpec] using
      JoinString_of_chain hi.1 d (Nat.succ_le_succ (Nat.zero_le fuel))

/-- Witness of C9: the delimiter `", "`, the empty stack and the stack holding `"x"`. -/
theorem C9_joinString_edges_witness :
    (none : Ptr) = none ∧ some 0 = some 0
    ∧ [(⟨"x", none⟩ : Node)][0]? = some { Data := "x", Next := none }
    ∧ Stack.JoinString 0 ", " { heap := [], s := { Top := none, Size := 0 } }
        = .ok ("", { heap := [], s := { Top := none, Size := 0 } })
    ∧ Stack.JoinString (0 + 1) ", " { heap := [⟨"x", none⟩], s := { Top := some 0, Size := 1 } }
        = .ok ("x", { heap := [⟨"x", none⟩], s := { Top := some 0, Size := 1 } })
    ∧ ∀ h, Stack.JoinString (0 + 1) ", " (Stack.Push "x" (emptyStack h))
        = .ok ("x", Stack.Push "x" (emptyStack h)) :=
  ⟨rfl, rfl, rfl,
    C9_joinString_edges ", " 0 { heap := [], s := { Top := none, Size := 0 } }
      { heap := [⟨"x", none⟩], s := { Top := some 0, Size := 1 } } 0 "x" rfl rfl rfl⟩

/-- C10. For every stack, `String()` returns exactly what `JoinString(", ")` returns (the
same result, or the same fault, under every step budget); when `Top` heads a chain, that is
the elements top to bottom separated by a comma followed by one space. -/
theorem C10_string_is_joinString (fuel : Nat) (w : World) :
    Stack.String fuel w = Stack.JoinString fuel ", " w
    ∧ ∀ cs, IsChain w.heap w.s.Top cs → cs.length ≤ fuel →
        Stack.String fuel w = .ok (joinSpec ", " (things cs), w) :=
  ⟨rfl, fun _ hc hf => JoinString_of_chain hc ", " hf⟩

/-- Witness of C10: the stack after `Push("a")`, `Push("b")` prints as `"b, a"`. -/
theorem C10_string_is_joinString_witness :
    Stack.String 2 (pushAll ["a", "b"] (emptyStack []))
      = .ok ("b, a", pushAll ["a", "b"] (emptyStack [])) :=
  (C10_string_is_joinString 2 (pushAll ["a", "b"] (emptyStack []))).2
    [(1, ⟨"b", some 0⟩), (0, ⟨"a", none⟩)] (by decide) (by decide)

/-! ## The traversal -/

theorem Keeps.refl (h : Heap) : Keeps h h :=
  fun _ _ hn => hn

theorem Keeps.trans {h1 h2 h3 : Heap} (h12 : Keeps h1 h2) (h23 : Keeps h2 h3) : Keeps h1 h3 :=
  fun a n hn => h23 a n (h12 a n hn)

/-- A chain stays a chain while its nodes are kept. -/
theorem IsChain.keeps {h h' : Heap} (hk : Keeps h h') :
    ∀ {p : Ptr} {cs : List (Nat × Node)}, IsChain h p cs → IsChain h' p cs := by
  intro p cs
  induction cs generalizing p with
  | nil => intro hc; exact hc
  | cons c cs ih =>
    obtain ⟨a, n⟩ := c
    intro hc
    exact ⟨hc.1, hk a n hc.2.1, ih hc.2.2⟩

theorem Reachable.peek_ok {w : World} (hr : Reachable w) :
    ∃ t found, Stack.Peek w = .ok ((t, found), w) ∧ (found = false ↔ w.s.Size = 0) := by
  obtain ⟨cs, hi⟩ := hr.inv
  cases cs with
  | nil =>
    have hz : w.s.Size = 0 := by rw [hi.2]; rfl
    exact ⟨"", false, Peek_of_size_zero hz, by simp [hz]⟩
  | cons c cs =>
    obtain ⟨a, n⟩ := c
    have hs : w.s.Size ≠ 0 := by
      rw [hi.2]
      simp
      omega
    exact ⟨n.Data, true, Peek_of_inv_cons hi, by simp [hs]⟩

theorem Reachable.pop_ok {w : World} (hr : Reachable w) :
    ∃ t found w', Stack.Pop w = .ok ((t, found), w') ∧ (found = false ↔ w.s.Size = 0) := by
  obtain ⟨cs, hi⟩ := hr.inv
  cases cs with
  | nil =>
    have hz : w.s.Size = 0 := by rw [hi.2]; rfl
    exact ⟨"", false, w, Pop_of_size_zero hz, by simp [hz]⟩
  | cons c cs =>
    obtain ⟨a, n⟩ := c
    have hs : w.s.Size ≠ 0 := by
      rw [hi.2]
      simp
      omega
    exact ⟨n.Data, true, _, Pop_of_inv_cons hi, by simp [hs]⟩

theorem runOps_of_reachable (ops : List Op) :
    ∀ {w : World}, Reachable w → ∃ w', runOps ops w = .ok w' ∧ Reachable w' := by
  induction ops with
  | nil => intro w hr; exact ⟨w, rfl, hr⟩
  | cons op ops ih =>
    intro w hr
    cases op with
    | push t => exact ih (hr.push t)
    | pop =>
      obtain ⟨t, found, w1, hp, _⟩ := hr.pop_ok
      obtain ⟨w', hrun, hr'⟩ := ih (Reachable.pop hr hp)
      exact ⟨w', by simp [runOps, hp, hrun], hr'⟩

/-- C17 (never fails on reachable states). On every stack reached from `Stack{}` by `Push`
and `Pop`, `Peek` and `Pop` return normally: neither dereferences a `nil` `Top` nor faults
in any other way, and `found == false` is returned exactly when the stack is empty
(`Size == 0`). Hence every further finite sequence of `Push` and `Pop` calls runs to its end
without a fault. -/
theorem C17_never_fails (w : World) (hr : Reachable w) (ops : List Op) :
    (∃ t found, Stack.Peek w = .ok ((t, found), w) ∧ (found = false ↔ w.s.Size = 0))
    ∧ (∃ t found w', Stack.Pop w = .ok ((t, found), w') ∧ (found = false ↔ w.s.Size = 0))
    ∧ (∀ e, Stack.Peek w ≠ .error e)
    ∧ (∀ e, Stack.Pop w ≠ .error e)
    ∧ ∃ w', runOps ops w = .ok w' ∧ Reachable w' := by
  refine ⟨hr.peek_ok, hr.pop_ok, ?_, ?_, runOps_of_reachable ops hr⟩
  · intro e he
    obtain ⟨t, found, hp, _⟩ := hr.peek_ok
    rw [hp] at he
    cases he
  · intro e he
    obtain ⟨t, found, w', hp, _⟩ := hr.pop_ok
    rw [hp] at he
    cases he

/-- Witness of C17: from `Stack{}`, then running pop, push, pop, pop, push. -/
theorem C17_never_fails_witness :
    Reachable (emptyStack [])
    ∧ (∃ t found, Stack.Peek (emptyStack []) = .ok ((t, found), emptyStack [])
        ∧ (found = false ↔ (emptyStack []).s.Size = 0))
    ∧ (∃ t found w', Stack.Pop (emptyStack []) = .ok ((t, found), w')
        ∧ (found = false ↔ (emptyStack []).s.Size = 0))
    ∧ (∀ e, Stack.Peek (emptyStack []) ≠ .error e)
    ∧ (∀ e, Stack.Pop (emptyStack []) ≠ .error e)
    ∧ ∃ w', runOps [Op.pop, Op.push "a", Op.pop, Op.pop, Op.push "b"] (emptyStack []) = .ok w'
        ∧ Reachable w' :=
  ⟨Reachable.empty [],
    C17_never_fails (emptyStack []) (Reachable.empty [])
      [Op.pop, Op.push "a", Op.pop, Op.pop, Op.push "b"]⟩

/-- C18 (Push/Pop round trip). On every reachable stack, `Push(x)` followed by `Pop` returns
`(x, true)` and leaves the `Stack` value it started from: `Top` is the pointer it was before
the `Push` and `Size` has its value from before the `Push`. The nodes allocated before are
untouched, and `JoinString(d)` returns the same text after the round trip as before it. -/
theorem C18_push_pop_round_trip (w : World) (hr : Reachable w) (x : Thing) (d : String)
    (fuel : Nat) (hfuel : w.s.Size ≤ (fuel : Int)) :
    ∃ w', Stack.Pop (Stack.Push x w) = .ok ((x, true), w')
      ∧ w'.s.Top = w.s.Top ∧ w'.s.Size = w.s.Size ∧ w'.s = w.s
      ∧ Keeps w.heap w'.heap
      ∧ ∃ str, Stack.JoinString fuel d w = .ok (str, w)
          ∧ Stack.JoinString fuel d w' = .ok (str, w') := by
  obtain ⟨cs, hi⟩ := hr.inv
  have hlen : cs.length ≤ fuel := by
    have := hi.2 ▸ hfuel
    exact_mod_cast this
  have hpop := Pop_of_inv_cons (hi.push x)
  have hsize : (Stack.Push x w).s.Size - 1 = w.s.Size := by
    show w.s.Size + 1 - 1 = w.s.Size
    omega
  rw [hsize] at hpop
  refine ⟨_, hpop, rfl, rfl, rfl, ?_, joinSpec d (things cs), JoinString_of_chain hi.1 d hlen, ?_⟩
  · intro a n hn
    exact getElem?_append_of_some hn _
  · have hc : IsChain (w.heap ++ [{ Data := x, Next := w.s.Top }]) w.s.Top cs :=
      IsChain.append _ hi.1
    exact JoinString_of_chain (w := { heap := _, s := { Top := w.s.Top, Size := w.s.Size } })
      hc d hlen

/-- Witness of C18: pushing and popping `"c"` on the stack that holds `"a"` below `"b"`. -/
theorem C18_push_pop_round_trip_witness :
    Reachable (Stack.Push "b" (Stack.Push "a" (emptyStack [])))
    ∧ (Stack.Push "b" (Stack.Push "a" (emptyStack []))).s.Size ≤ ((2 : Nat) : Int)
    ∧ ∃ w', Stack.Pop (Stack.Push "c" (Stack.Push "b" (Stack.Push "a" (emptyStack []))))
          = .ok (("c", true), w')
      ∧ w'.s.Top = (Stack.Push "b" (Stack.Push "a" (emptyStack []))).s.Top
      ∧ w'.s.Size = (Stack.Push "b" (Stack.Push "a" (emptyStack []))).s.Size
      ∧ w'.s = (Stack.Push "b" (Stack.Push "a" (emptyStack []))).s
      ∧ Keeps (Stack.Push "b" (Stack.Push "a" (emptyStack []))).heap w'.heap
      ∧ ∃ str, Stack.JoinString 2 ", " (Stack.Push "b" (Stack.Push "a" (emptyStack [])))
            = .ok (str, Stack.Push "b" (Stack.Push "a" (emptyStack [])))
          ∧ Stack.JoinString 2 ", " w' = .ok (str, w') :=
  have hr : Reachable (Stack.Push "b" (Stack.Push "a" (emptyStack []))) :=
    Reachable.push "b" (Reachable.push "a" (Reachable.empty []))
  have hfuel : (Stack.Push "b" (Stack.Push "a" (emptyStack []))).s.Size ≤ ((2 : Nat) : Int) := by
    decide
  ⟨hr, hfuel, C18_push_pop_round_trip _ hr "c" ", " 2 hfuel⟩

end stack

/-! # The demo program -/

namespace playground

open stack

theorem popLoop_false (fuel : Nat) (w : World) : popLoop fuel false w = .ok ([], w) := by
  cases fuel <;> rfl

/-- C11 (demo scenario). Given a step budget of at least 3, `main` runs to its end. After
the pushes of `"Thing 1"`, `"Thing 2"`, `"Thing 3"`, `JoinString("\n")` returns `"Thing 3"`,
`"Thing 2"`, `"Thing 1"` separated by newlines; `Pop` then returns `("Thing 3", true)`;
`JoinString("\n")` then returns `"Thing 2"`, newline, `"Thing 1"`; the loop makes exactly
three more pops, two that find an element and one that does not; and `Empty()` is true. -/
theorem C11_demo_scenario (fuel : Nat) (hf : 3 ≤ fuel) :
    main fuel
      = .ok ({ joined1 := "Thing 3\nThing 2\nThing 1",
               thing3 := "Thing 3",
               found := true,
               joined2 := "Thing 2\nThing 1",
               loopPops := [("Thing 2", true), ("Thing 1", true), ("", false)],
               empty := true },
             { heap := [⟨"Thing 1", none⟩, ⟨"Thing 2", some 0⟩, ⟨"Thing 3", some 1⟩],
               s := { Top := none, Size := 0 } }) := by
  obtain ⟨k, rfl⟩ : ∃ k, fuel = k + 3 := ⟨fuel - 3, by omega⟩
  have hJ1 : Stack.JoinString (k + 3) "\n"
      { heap := [⟨"Thing 1", none⟩, ⟨"Thing 2", some 0⟩, ⟨"Thing 3", some 1⟩],
        s := { Top := some 2, Size := 3 } }
      = .ok ("Thing 3\nThing 2\nThing 1",
          { heap := [⟨"Thing 1", none⟩, ⟨"Thing 2", some 0⟩, ⟨"Thing 3", some 1⟩],
            s := { Top := some 2, Size := 3 } }) := by
    have hc : IsChain [⟨"Thing 1", none⟩, ⟨"Thing 2", some 0⟩, ⟨"Thing 3", some 1⟩] (some 2)
        [(2, ⟨"Thing 3", some 1⟩), (1, ⟨"Thing 2", some 0⟩), (0, ⟨"Thing 1", none⟩)] := by decide
    rw [JoinString_of_chain (w := ⟨_, ⟨_, 3⟩⟩) hc "\n" (by simp)]
    have : joinSpec "\n" (things
        [(2, ⟨"Thing 3", some 1⟩), (1, ⟨"Thing 2", some 0⟩), (0, ⟨"Thing 1", none⟩)])
        = "Thing 3\nThing 2\nThing 1" := by decide
    rw [this]
  have hJ2 : Stack.JoinString (k + 3) "\n"
      { heap := [⟨"Thing 1", none⟩, ⟨"Thing 2", some 0⟩, ⟨"Thing 3", some 1⟩],
        s := { Top := some 1, Size := 2 } }
      = .ok ("Thing 2\nThing 1",
          { heap := [⟨"Thing 1", none⟩, ⟨"Thing 2", some 0⟩, ⟨"Thing 3", some 1⟩],
            s := { Top := some 1, Size := 2 } }) := by
    have hc : IsChain [⟨"Thing 1", none⟩, ⟨"Thing 2", some 0⟩, ⟨"Thing 3", some 1⟩] (some 1)
        [(1, ⟨"Thing 2", some 0⟩), (0, ⟨"Thing 1", none⟩)] := by decide
    rw [JoinString_of_chain (w := ⟨_, ⟨_, 2⟩⟩) hc "\n" (by simp)]
    have : joinSpec "\n" (things [(1, ⟨"Thing 2", some 0⟩), (0, ⟨"Thing 1", none⟩)])
        = "Thing 2\nThing 1" := by decide
    rw [this]
  have hs3 : Stack.Push "Thing 3" (Stack.Push "Thing 2" (Stack.Push "Thing 1" (emptyStack [])))
      = { heap := [⟨"Thing 1", none⟩, ⟨"Thing 2", some 0⟩, ⟨"Thing 3", some 1⟩],
          s := { Top := some 2, Size := 3 } } := rfl
  have hPop : Stack.Pop
      { heap := [⟨"Thing 1", none⟩, ⟨"Thing 2", some 0⟩, ⟨"Thing 3", some 1⟩],
        s := { Top := some 2, Size := 3 } }
      = .ok (("Thing 3", true),
          { heap := [⟨"Thing 1", none⟩, ⟨"Thing 2", some 0⟩, ⟨"Thing 3", some 1⟩],
            s := { Top := some 1, Size := 2 } }) := rfl
  have hLoop : popLoop (k + 3) true
      { heap := [⟨"Thing 1", none⟩, ⟨"Thing 2", some 0⟩, ⟨"Thing 3", some 1⟩],
        s := { Top := some 1, Size := 2 } }
      = .ok ([("Thing 2", true), ("Thing 1", true), ("", false)],
          { heap := [⟨"Thing 1", none⟩, ⟨"Thing 2", some 0⟩, ⟨"Thing 3", some 1⟩],
            s := { Top := none, Size := 0 } }) := by
    have h1 : Stack.Pop
        { heap := [⟨"Thing 1", none⟩, ⟨"Thing 2", some 0⟩, ⟨"Thing 3", some 1⟩],
          s := { Top := some 1, Size := 2 } }
        = .ok (("Thing 2", true),
            { heap := [⟨"Thing 1", none⟩, ⟨"Thing 2", some 0⟩, ⟨"Thing 3", some 1⟩],
              s := { Top := some 0, Size := 1 } }) := rfl
    have h2 : Stack.Pop
        { heap := [⟨"Thing 1", none⟩, ⟨"Thing 2", some 0⟩, ⟨"Thing 3", some 1⟩],
          s := { Top := some 0, Size := 1 } }
        = .ok (("Thing 1", true),
            { heap := [⟨"Thing 1", none⟩, ⟨"Thing 2", some 0⟩, ⟨"Thing 3", some 1⟩],
              s := { Top := none, Size := 0 } }) := rfl
    have h3 : Stack.Pop
        { heap := [⟨"Thing 1", none⟩, ⟨"Thing 2", some 0⟩, ⟨"Thing 3", some 1⟩],
          s := { Top := none, Size := 0 } }
        = .ok (("", false),
            { heap := [⟨"Thing 1", none⟩, ⟨"Thing 2", some 0⟩, ⟨"Thing 3", some 1⟩],
              s := { Top := none, Size := 0 } }) := rfl
    simp only [popLoop, h1, h2, h3, popLoop_false]
  simp only [main, hs3, hJ1, hPop, hJ2, hLoop, Stack.Empty]
  rfl

/-- Witness of C11: the run with a budget of exactly three steps. -/
theorem C11_demo_scenario_witness :
    3 ≤ 3 ∧ main 3
      = .ok ({ joined1 := "Thing 3\nThing 2\nThing 1",
               thing3 := "Thing 3",
               found := true,
               joined2 := "Thing 2\nThing 1",
               loopPops := [("Thing 2", true), ("Thing 1", true), ("", false)],
               empty := true },
             { heap := [⟨"Thing 1", none⟩, ⟨"Thing 2", some 0⟩, ⟨"Thing 3", some 1⟩],
               s := { Top := none, Size := 0 } }) :=
  ⟨by decide, C11_demo_scenario 3 (by decide)⟩

end playground

/-! # The directory stack -/

namespace bash

theorem lastItem_append (ds : List String) (d : String) : lastItem (ds ++ [d]) = .ok d := by
  have hi : ((ds ++ [d]).length : Int) - 1 = (ds.length : Int) := by
    simp
  have hnn : ¬ ((ds.length : Int) < 0) := by omega
  simp only [lastItem, hi, index, hnn, if_false, Int.toNat_ofNat]
  simp

theorem popItem_append (ds : List String) (d : String) : popItem (ds ++ [d]) = .ok ds := by
  have hi : ((ds ++ [d]).length : Int) - 1 = (ds.length : Int) := by
    simp
  have hnn : ¬ ((ds.length : Int) < 0 ∨ ((ds ++ [d]).length : Int) < (ds.length : Int)) := by
    simp
  simp only [popItem, hi, sliceTo, hnn, if_false, Int.toNat_ofNat]
  simp

theorem lastItem_nil : lastItem [] = .error (Fault.indexOutOfRange (-1) 0) := by
  rfl

/-- C12 (Pushd is atomic on the recorded sequence). For every operating system, path and
process with recorded sequence `ds`: (1) if `Getwd` fails with `e`, `Pushd` returns `e`, the
operating system is left in the state `Getwd` left it in (no `Chdir` is made) and the
sequence is `ds`; (2) if `Getwd` succeeds with `c` and `Chdir(path)` fails with `e`, `Pushd`
returns `e` and the sequence is `ds`; (3) if both succeed, `Pushd` returns `nil` and the
sequence is `ds` with `c` appended at the end. On the logging system, case (1) logs the
single call `Getwd`. -/
theorem C12_pushd_atomic {ε Ω : Type} (os : OS ε Ω) (path : String) (p : Proc Ω) :
    (∀ d e ω, os.Getwd p.os = ((d, some e), ω) →
        Pushd os path p = (some e, { os := ω, dirStack := p.dirStack }))
    ∧ (∀ c ω e ω', os.Getwd p.os = ((c, none), ω) → os.Chdir path ω = (some e, ω') →
        Pushd os path p = (some e, { os := ω', dirStack := p.dirStack }))
    ∧ (∀ c ω ω', os.Getwd p.os = ((c, none), ω) → os.Chdir path ω = (none, ω') →
        Pushd os path p = (none, { os := ω', dirStack := p.dirStack ++ [c] }))
    ∧ (∀ (getwdErr chdirErr : String → Option ε) (σ : Sys) (ds : List String) (e : ε),
        getwdErr σ.cwd = some e →
        Pushd (sysOS getwdErr chdirErr) path { os := σ, dirStack := ds }
          = (some e, { os := { cwd := σ.cwd, calls := σ.calls ++ [Call.getwd] },
                       dirStack := ds })) := by
  refine ⟨?_, ?_, ?_, ?_⟩
  · intro d e ω hg
    simp [Pushd, hg]
  · intro c ω e ω' hg hc
    simp [Pushd, hg, hc]
  · intro c ω ω' hg hc
    simp [Pushd, hg, hc, pushItem]
  · intro getwdErr chdirErr σ ds e hg
    simp [Pushd, sysOS, hg]

/-- Witness of C12: on the logging system, a `Getwd` that fails, a `Chdir` that fails, and a
run where both succeed. -/
theorem C12_pushd_atomic_witness :
    Pushd (sysOS (fun _ => some "getwd: gone") (fun _ => none)) "/tmp"
        { os := { cwd := "/home", calls := [] }, dirStack := ["/a"] }
      = (some "getwd: gone",
          { os := { cwd := "/home", calls := [Call.getwd] }, dirStack := ["/a"] })
    ∧ Pushd (sysOS (fun _ => none) (fun _ => some "chdir: no such directory")) "/tmp"
        { os := { cwd := "/home", calls := [] }, dirStack := ["/a"] }
      = (some "chdir: no such directory",
          { os := { cwd := "/home", calls := [Call.getwd, Call.chdir "/tmp"] },
            dirStack := ["/a"] })
    ∧ Pushd (sysOS (fun _ => (none : Option String)) (fun _ => none)) "/tmp"
        { os := { cwd := "/home", calls := [] }, dirStack := ["/a"] }
      = (none,
          { os := { cwd := "/tmp", calls := [Call.getwd, Call.chdir "/tmp"] },
            dirStack := ["/a", "/home"] }) :=
  ⟨(C12_pushd_atomic (sysOS (fun _ => some "getwd: gone") (fun _ => none)) "/tmp"
      { os := { cwd := "/home", calls := [] }, dirStack := ["/a"] }).1 _ _ _ rfl,
   (C12_pushd_atomic (sysOS (fun _ => none) (fun _ => some "chdir: no such directory")) "/tmp"
      { os := { cwd := "/home", calls := [] }, dirStack := ["/a"] }).2.1 _ _ _ _ rfl rfl,
   (C12_pushd_atomic (sysOS (fun _ => (none : Option String)) (fun _ => none)) "/tmp"
      { os := { cwd := "/home", calls := [] }, dirStack := ["/a"] }).2.2.1 _ _ _ rfl rfl⟩

/-- C13 (Popd on an empty sequence). When `dirStack` has length 0, `lastItem` indexes
position `-1`, and `Popd` ends in the panic `index out of range [-1] with length 0`: it
returns no error value, and at the panic the operating system's state (so the working
directory, no `Chdir` having been made) and the sequence are as they were before the call. -/
theorem C13_popd_empty_faults {ε Ω : Type} (os : OS ε Ω) (p : Proc Ω)
    (hlen : p.dirStack.length = 0) :
    lastItem p.dirStack = .error (Fault.indexOutOfRange (-1) 0)
    ∧ Popd os p = Outcome.panicked (Fault.indexOutOfRange (-1) 0) p
    ∧ ∀ e p', Popd os p ≠ Outcome.returned e p' := by
  have hnil : p.dirStack = [] := List.length_eq_zero.mp hlen
  have hl : lastItem p.dirStack = .error (Fault.indexOutOfRange (-1) 0) := by
    rw [hnil]
    exact lastItem_nil
  have hp : Popd os p = Outcome.panicked (Fault.indexOutOfRange (-1) 0) p := by
    simp [Popd, hl]
  refine ⟨hl, hp, ?_⟩
  intro e p' h
  rw [hp] at h
  cases h

/-- Witness of C13: the logging system with nothing recorded; the log stays empty. -/
theorem C13_popd_empty_faults_witness :
    ([] : List String).length = 0
    ∧ lastItem [] = .error (Fault.indexOutOfRange (-1) 0)
    ∧ Popd (sysOS (fun _ => (none : Option String)) (fun _ => none))
          { os := { cwd := "/home", calls := [] }, dirStack := [] }
        = Outcome.panicked (Fault.indexOutOfRange (-1) 0)
            { os := { cwd := "/home", calls := [] }, dirStack := [] }
    ∧ ∀ e p', Popd (sysOS (fun _ => (none : Option String)) (fun _ => none))
          { os := { cwd := "/home", calls := [] }, dirStack := [] } ≠ Outcome.returned e p' :=
  ⟨rfl, C13_popd_empty_faults (sysOS (fun _ => (none : Option String)) (fun _ => none))
    { os := { cwd := "/home", calls := [] }, dirStack := [] } rfl⟩

/-- C14 (Popd on a non-empty sequence). With `ds ++ [d]` recorded, `lastItem` gives `d` and
`Popd` calls `Chdir` with `d`: if that succeeds `Popd` returns `nil` and the sequence is
`ds`; if it fails with `e`, `Popd` returns `e` and the sequence is still `ds ++ [d]`. On the
logging system the one call logged is `Chdir(d)`. -/
theorem C14_popd_nonempty {ε Ω : Type} (os : OS ε Ω) (ω : Ω) (ds : List String) (d : String) :
    lastItem (ds ++ [d]) = .ok d
    ∧ (∀ ω', os.Chdir d ω = (none, ω') →
        Popd os { os := ω, dirStack := ds ++ [d] }
          = Outcome.returned none { os := ω', dirStack := ds })
    ∧ (∀ e ω', os.Chdir d ω = (some e, ω') →
        Popd os { os := ω, dirStack := ds ++ [d] }
          = Outcome.returned (some e) { os := ω', dirStack := ds ++ [d] })
    ∧ (∀ (getwdErr chdirErr : String → Option ε) (σ : Sys),
        ∃ e p', Popd (sysOS getwdErr chdirErr) { os := σ, dirStack := ds ++ [d] }
            = Outcome.returned e p'
          ∧ p'.os.calls = σ.calls ++ [Call.chdir d]) := by
  refine ⟨lastItem_append ds d, ?_, ?_, ?_⟩
  · intro ω' hc
    simp [Popd, lastItem_append, hc, popItem_append]
  · intro e ω' hc
    simp [Popd, lastItem_append, hc]
  · intro getwdErr chdirErr σ
    cases hce : chdirErr d with
    | none =>
      exact ⟨none, { os := { cwd := d, calls := σ.calls ++ [Call.chdir d] }, dirStack := ds },
        by simp [Popd, lastItem_append, popItem_append, sysOS, hce], rfl⟩
    | some e =>
      exact ⟨some e,
        { os := { cwd := σ.cwd, calls := σ.calls ++ [Call.chdir d] }, dirStack := ds ++ [d] },
        by simp [Popd, lastItem_append, sysOS, hce], rfl⟩

/-- Witness of C14: on the logging system with `["/a", "/b"]` recorded, a `Chdir` that
succeeds and one that fails. -/
theorem C14_popd_nonempty_witness :
    Popd (sysOS (fun _ => (none : Option String)) (fun _ => none))
        { os := { cwd := "/home", calls := [] }, dirStack := ["/a"] ++ ["/b"] }
      = Outcome.returned none
          { os := { cwd := "/b", calls := [Call.chdir "/b"] }, dirStack := ["/a"] }
    ∧ Popd (sysOS (fun _ => none) (fun _ => some "chdir: no such directory"))
        { os := { cwd := "/home", calls := [] }, dirStack := ["/a"] ++ ["/b"] }
      = Outcome.returned (some "chdir: no such directory")
          { os := { cwd := "/home", calls := [Call.chdir "/b"] }, dirStack := ["/a"] ++ ["/b"] } :=
  ⟨(C14_popd_nonempty (sysOS (fun _ => (none : Option String)) (fun _ => none))
      { cwd := "/home", calls := [] } ["/a"] "/b").2.1 _ rfl,
   (C14_popd_nonempty (sysOS (fun _ => none) (fun _ => some "chdir: no such directory"))
      { cwd := "/home", calls := [] } ["/a"] "/b").2.2.1 _ _ rfl⟩

/-- C19 (Pushd/Popd round trip). Let the operating system have a working directory `cwd`
that a successful `Getwd` returns and that a successful `Chdir(p)` sets to `p`. If
`Pushd(path)` returns `nil` and the `Popd` that follows returns `nil`, then after `Pushd` the
working directory is `path` and the sequence is the old one with the old working directory
appended, and after `Popd` the working directory is the one in effect before `Pushd` and the
recorded sequence is again the one before `Pushd`. -/
theorem C19_pushd_popd_round_trip {ε Ω : Type} (os : OS ε Ω) (cwd : Ω → String)
    (hGetwd : ∀ ω d ω', os.Getwd ω = ((d, none), ω') → d = cwd ω)
    (hChdir : ∀ dir ω ω', os.Chdir dir ω = (none, ω') → cwd ω' = dir)
    (path : String) (p p1 p2 : Proc Ω)
    (hpush : Pushd os path p = (none, p1))
    (hpop : Popd os p1 = Outcome.returned none p2) :
    cwd p1.os = path ∧ p1.dirStack = p.dirStack ++ [cwd p.os]
    ∧ cwd p2.os = cwd p.os ∧ p2.dirStack = p.dirStack := by
  -- the run of Pushd
  rcases hg : os.Getwd p.os with ⟨⟨c, ge⟩, ω1⟩
  cases ge with
  | some e =>
    simp [Pushd, hg] at hpush
  | none =>
    have hc_eq : c = cwd p.os := hGetwd _ _ _ hg
    rcases hc : os.Chdir path ω1 with ⟨ce, ω2⟩
    cases ce with
    | some e =>
      simp [Pushd, hg, hc] at hpush
    | none =>
      have hp1 : p1 = { os := ω2, dirStack := p.dirStack ++ [c] } := by
        simp [Pushd, hg, hc, pushItem] at hpush
        exact hpush.symm
      subst hp1
      have hcwd1 : cwd ω2 = path := hChdir _ _ _ hc
      -- the run of Popd
      rcases hc2 : os.Chdir c ω2 with ⟨ce2, ω3⟩
      cases ce2 with
      | some e =>
        simp [Popd, lastItem_append, hc2] at hpop
      | none =>
        have hp2 : p2 = { os := ω3, dirStack := p.dirStack } := by
          simp [Popd, lastItem_append, hc2, popItem_append] at hpop
          exact hpop.symm
        subst hp2
        have hcwd3 : cwd ω3 = c := hChdir _ _ _ hc2
        exact ⟨hcwd1, by rw [hc_eq], by rw [← hc_eq]; exact hcwd3, rfl⟩

/-- Witness of C19: on the logging system, from `/home` with `["/a"]` recorded, `Pushd` to
`/tmp` and back. -/
theorem C19_pushd_popd_round_trip_witness :
    (∀ ω d ω', (sysOS (fun _ => (none : Option String)) (fun _ => none)).Getwd ω
        = ((d, none), ω') → d = ω.cwd)
    ∧ (∀ dir ω ω', (sysOS (fun _ => (none : Option String)) (fun _ => none)).Chdir dir ω
        = (none, ω') → ω'.cwd = dir)
    ∧ Pushd (sysOS (fun _ => (none : Option String)) (fun _ => none)) "/tmp"
        { os := { cwd := "/home", calls := [] }, dirStack := ["/a"] }
      = (none, { os := { cwd := "/tmp", calls := [Call.getwd, Call.chdir "/tmp"] },
                 dirStack := ["/a", "/home"] })
    ∧ Popd (sysOS (fun _ => (none : Option String)) (fun _ => none))
        { os := { cwd := "/tmp", calls := [Call.getwd, Call.chdir "/tmp"] },
          dirStack := ["/a", "/home"] }
      = Outcome.returned none
          { os := { cwd := "/home",
                    calls := [Call.getwd, Call.chdir "/tmp", Call.chdir "/home"] },
            dirStack := ["/a"] }
    ∧ "/tmp" = "/tmp" ∧ ["/a", "/home"] = ["/a"] ++ ["/home"]
    ∧ "/home" = "/home" ∧ ["/a"] = ["/a"] :=
  have hG : ∀ ω d ω', (sysOS (fun _ => (none : Option String)) (fun _ => none)).Getwd ω
      = ((d, none), ω') → d = ω.cwd := by
    intro ω d ω' h
    simp [sysOS] at h
    exact h.1.symm
  have hC : ∀ dir ω ω', (sysOS (fun _ => (none : Option String)) (fun _ => none)).Chdir dir ω
      = (none, ω') → ω'.cwd = dir := by
    intro dir ω ω' h
    simp [sysOS] at h
    rw [← h]
  ⟨hG, hC, rfl, rfl,
    C19_pushd_popd_round_trip (sysOS (fun _ => (none : Option String)) (fun _ => none))
      Sys.cwd hG hC "/tmp"
      { os := { cwd := "/home", calls := [] }, dirStack := ["/a"] }
      { os := { cwd := "/tmp", calls := [Call.getwd, Call.chdir "/tmp"] },
        dirStack := ["/a", "/home"] }
      { os := { cwd := "/home", calls := [Call.getwd, Call.chdir "/tmp", Call.chdir "/home"] },
        dirStack := ["/a"] }
      rfl rfl⟩

end bash

/-! # The error helper -/

namespace cookies

/-- C15. For every non-nil error `e`, format string `m` and argument list `args`,
`Wrap(e, m, args...)` returns (it is a total function) a non-nil error whose textual message
is `fmt.Sprintf(m, args...)` and whose underlying cause is `e`. -/
theorem C15_wrap {α : Type} (Sprintf : String → List α → String) (e : GoError) (m : String)
    (args : List α) (he : e ≠ none) :
    ∃ e0 r, e = some e0 ∧ Wrap Sprintf e m args = some r
      ∧ r.message = Sprintf m args ∧ r.cause = some e0 := by
  cases e with
  | none => exact absurd rfl he
  | some e0 => exact ⟨e0, Err.wrapped (Sprintf m args) e0, rfl, rfl, rfl, rfl⟩

/-- Witness of C15: wrapping a plain error, the formatter appending its arguments. -/
theorem C15_wrap_witness :
    (some (Err.plain "file missing") : GoError) ≠ none
    ∧ ∃ e0 r, (some (Err.plain "file missing") : GoError) = some e0
      ∧ Wrap (fun m args => m ++ String.join args) (some (Err.plain "file missing")) "load "
          ["cfg"] = some r
      ∧ r.message = "load " ++ String.join ["cfg"] ∧ r.cause = some e0 :=
  ⟨by simp, C15_wrap (fun m args => m ++ String.join args) (some (Err.plain "file missing"))
    "load " ["cfg"] (by simp)⟩

end cookies
